import Mathlib

/-!
Verification of the varusUpdated NFT contract (an NEP-171 style token ledger
with a "mutation" transfer rule and a cure/burn-all operation).

The embedding below models the contract state `Contract` from
src/nft-contract/src/lib.rs and the operation `nft_cure` from
src/nft-contract/src/cure.rs.  The repository's modules internal.rs,
nft_core.rs, mint.rs, enumeration.rs and the vaxxx module are not under src/
(only their tests, declarations and callers are), so the operations they
define (internal_transfer, nft_transfer, nft_mint, vaxxx, tokens_of,
nft_supply_for_owner) are modelled from the specification, as marked in the
individual doc comments.

Modelling conventions:
- AccountId is a string, TokenId an unsigned integer (Nat).
- near_sdk keyed collections become total functions; an account that has no
  owner-index set is represented by the empty list, so the source's
  "tokens_per_owner.get(..) is None" coincides with "the set is empty"
  (the spec's cure failure condition is "the set is empty").
- An UnorderedSet is an insertion-ordered duplicate-free list.
- Panics/errors become an Except result; the host rolls back the whole unit
  of work on failure, which the Except short-circuit models.
-/

namespace Varus

/-- Token identifiers: unsigned integers allocated by a single counter
(TokenId in the source). -/
abbrev TokenId := Nat

/-- Account identifiers (AccountId in the source). -/
abbrev AccountId := String

/-- Token-level metadata record; every field optional.  The struct lives in
metadata.rs, which is not under src/; the field list follows the spec's
Metadata record and the test helper get_thevarus in lib.rs. -/
structure TokenMetadata where
  title : Option String
  description : Option String
  media : Option String
  media_hash : Option (List Nat)
  copies : Option Nat
  issued_at : Option Nat
  expires_at : Option Nat
  starts_at : Option Nat
  updated_at : Option Nat
  extra : Option String
  reference : Option String
  reference_hash : Option (List Nat)
deriving DecidableEq

/-- Contract-level metadata (NFTContractMetadata in metadata.rs, not under
src/; fields as constructed by Contract::new_default_meta in lib.rs). -/
structure NFTContractMetadata where
  spec : String
  name : String
  symbol : String
  icon : Option String
  base_uri : Option String
  reference : Option String
  reference_hash : Option (List Nat)
deriving DecidableEq

/-- A token record: the system of record for ownership.  The spec's Token
record is { id, owner }; the id is the key of tokens_by_id, so only the
owner field is stored. -/
structure Token where
  owner_id : AccountId
deriving DecidableEq

/-- Error kinds of the public operations (spec section 7).  NothingToCure is
the "Account not infected." panic of cure.rs. -/
inductive Err where
  | NotFound
  | Unauthorized
  | StaleApproval
  | NothingToCure
  | NoOpTransfer
deriving DecidableEq

/-- The contract state, from the Contract struct in lib.rs:
owner_id, tokens_per_owner (LookupMap AccountId -> UnorderedSet TokenId),
tokens_by_id (LookupMap TokenId -> Token), token_metadata_by_id
(UnorderedMap TokenId -> TokenMetadata), metadata (LazyOption),
vaxxxed (UnorderedSet AccountId), next_token_id (TokenId counter). -/
structure Contract where
  owner_id : AccountId
  tokens_per_owner : AccountId → List TokenId
  tokens_by_id : TokenId → Option Token
  token_metadata_by_id : TokenId → Option TokenMetadata
  metadata : NFTContractMetadata
  vaxxxed : List AccountId
  next_token_id : TokenId

/-- Contract::new from lib.rs: all collections empty, counter 0. -/
def Contract.new (owner_id : AccountId) (metadata : NFTContractMetadata) : Contract :=
  { owner_id := owner_id
    tokens_per_owner := fun _ => []
    tokens_by_id := fun _ => none
    token_metadata_by_id := fun _ => none
    metadata := metadata
    vaxxxed := []
    next_token_id := 0 }

/-- The default contract metadata built by Contract::new_default_meta in lib.rs. -/
def defaultContractMetadata : NFTContractMetadata :=
  { spec := "nft-1.0.0"
    name := "thevarus2022"
    symbol := "VARUS"
    icon := none
    base_uri := none
    reference := none
    reference_hash := none }

/-- Contract::new_default_meta from lib.rs. -/
def Contract.new_default_meta (owner_id : AccountId) : Contract :=
  Contract.new owner_id defaultContractMetadata

/-- The fixed sink account of cure.rs ("burn.near"). -/
def burnAddress : AccountId := "burn.near"

/-- Modelled from the spec: internal_add_token_to_owner (internal.rs is not
under src/).  Spec 4.3: add(account, id) inserts id into account's set,
idempotent if already present; an UnorderedSet appends new elements at the
end, preserving insertion order. -/
def internal_add_token_to_owner (c : Contract) (account_id : AccountId)
    (token_id : TokenId) : Contract :=
  { c with tokens_per_owner := fun a =>
      if a = account_id then
        if token_id ∈ c.tokens_per_owner account_id then c.tokens_per_owner account_id
        else c.tokens_per_owner account_id ++ [token_id]
      else c.tokens_per_owner a }

/-- Modelled from the spec: internal_remove_token_from_owner (internal.rs is
not under src/).  Spec 4.3: remove(account, id) removes id from account's
set; no-op if absent or if the account has no set yet. -/
def internal_remove_token_from_owner (c : Contract) (account_id : AccountId)
    (token_id : TokenId) : Contract :=
  { c with tokens_per_owner := fun a =>
      if a = account_id then
        (c.tokens_per_owner account_id).filter (fun t => decide (t ≠ token_id))
      else c.tokens_per_owner a }

/-- Modelled from the spec: internal_transfer (internal.rs is not under src/;
its caller nft_cure in cure.rs passes sender, receiver, token id, approval id
and memo).  Spec 4.4 steps 1-4 and 6: look the token up (NotFound), require
the sender to be the current owner (Unauthorized; approval bookkeeping is an
external collaborator with no approvals in the modelled state, so a supplied
approval id is stale, StaleApproval), reject transfer to the current owner
(NoOpTransfer), then remove from the old owner's index set, add to the
receiver's set and update the stored owner.  The memo only feeds event
emission (external) and is unused. -/
def internal_transfer (c : Contract) (sender_id receiver_id : AccountId)
    (token_id : TokenId) (approval_id : Option Nat) (_memo : Option String) :
    Except Err Contract :=
  match c.tokens_by_id token_id with
  | none => .error .NotFound
  | some token =>
    if token.owner_id = sender_id then
      if receiver_id = token.owner_id then .error .NoOpTransfer
      else
        let c1 := internal_remove_token_from_owner c token.owner_id token_id
        let c2 := internal_add_token_to_owner c1 receiver_id token_id
        .ok { c2 with tokens_by_id := fun t =>
                if t = token_id then some { owner_id := receiver_id }
                else c2.tokens_by_id t }
    else
      match approval_id with
      | some _ => .error .StaleApproval
      | none => .error .Unauthorized

/-- Modelled from the spec: nft_mint (mint.rs is not under src/).  Spec 4.4:
mint(metadata, owner) allocates the next identifier, stores the token and its
metadata, inserts the id into the owner's index set and returns the new id.
The royalty argument of the source's nft_mint is out of scope (spec 1). -/
def nft_mint (c : Contract) (metadata : TokenMetadata) (receiver_id : AccountId) :
    Contract × TokenId :=
  let token_id := c.next_token_id
  let c1 : Contract :=
    { c with
      tokens_by_id := fun t =>
        if t = token_id then some { owner_id := receiver_id } else c.tokens_by_id t
      token_metadata_by_id := fun t =>
        if t = token_id then some metadata else c.token_metadata_by_id t
      next_token_id := c.next_token_id + 1 }
  (internal_add_token_to_owner c1 receiver_id token_id, token_id)

/-- Modelled from the spec: nft_transfer (nft_core.rs is not under src/).
Spec 4.4: the primary leg is internal_transfer from the caller; step 5: if a
secondary receiver is supplied and differs from the primary receiver, the
token's metadata is cloned into a freshly allocated identifier minted to the
secondary receiver (the "mutation"); the step is skipped entirely when no
secondary receiver is given.  The metadata lookup fails with NotFound if the
token has no metadata record (spec 4.2). -/
def nft_transfer (c : Contract) (sender_id receiver_id : AccountId)
    (secondary_receiver : Option AccountId) (token_id : TokenId)
    (approval_id : Option Nat) (memo : Option String) : Except Err Contract :=
  match internal_transfer c sender_id receiver_id token_id approval_id memo with
  | .error e => .error e
  | .ok c1 =>
    match secondary_receiver with
    | none => .ok c1
    | some s =>
      if s = receiver_id then .ok c1
      else
        match c1.token_metadata_by_id token_id with
        | none => .error .NotFound
        | some m => .ok (nft_mint c1 m s).1

/-- Modelled from the spec: vaxxx (register; its module is not under src/).
Spec 4.6: register(account) is an idempotent insertion into the allow-list
set; an UnorderedSet appends new elements, keeping insertion order. -/
def vaxxx (c : Contract) (account_id : AccountId) : Contract :=
  if account_id ∈ c.vaxxxed then c
  else { c with vaxxxed := c.vaxxxed ++ [account_id] }

/-- The transfer loop of nft_cure in cure.rs: tokens.iter().map(|token_id|
self.internal_transfer(&sender_id, &burn_address, &token_id, None, None))
over the snapshot list, short-circuiting on failure (a panic aborts and rolls
back the whole unit). -/
def cureLoop (caller : AccountId) : Contract → List TokenId → Except Err Contract
  | st, [] => .ok st
  | st, token_id :: rest =>
    match internal_transfer st caller burnAddress token_id none none with
    | .error e => .error e
    | .ok st1 => cureLoop caller st1 rest

/-- nft_cure from cure.rs: snapshot the caller's owner-index set with
to_vec(), fail with "Account not infected." (NothingToCure) when the caller
has none, otherwise internal_transfer every snapshotted id to burn.near. -/
def nft_cure (c : Contract) (caller : AccountId) : Except Err Contract :=
  let tokens := c.tokens_per_owner caller
  if tokens = [] then .error .NothingToCure
  else cureLoop caller c tokens

/-- Modelled from the spec: the read-only query tokens_of (enumeration.rs is
not under src/).  Spec 4.3: returns the account's ids in insertion order and
an empty sequence, not an error, for an unknown account. -/
def tokens_of (c : Contract) (account_id : AccountId) : List TokenId :=
  c.tokens_per_owner account_id

/-- Modelled from the spec: nft_supply_for_owner (enumeration.rs is not under
src/): the cardinality of the account's owner-index set. -/
def nft_supply_for_owner (c : Contract) (account_id : AccountId) : Nat :=
  (c.tokens_per_owner account_id).length

/-- The public operations of the core surface (spec section 6): mint,
transfer (sender is the caller), cure (sender is the caller), register. -/
inductive Op where
  | mint (metadata : TokenMetadata) (receiver_id : AccountId)
  | transfer (caller receiver_id : AccountId) (secondary_receiver : Option AccountId)
      (token_id : TokenId) (approval_id : Option Nat) (memo : Option String)
  | cure (caller : AccountId)
  | register (account_id : AccountId)

/-- Apply one public operation; mint and register never fail. -/
def applyOp (c : Contract) : Op → Except Err Contract
  | .mint m r => .ok (nft_mint c m r).1
  | .transfer caller r s id a memo => nft_transfer c caller r s id a memo
  | .cure caller => nft_cure c caller
  | .register a => .ok (vaxxx c a)

/-- Run one public operation under the host's all-or-nothing guarantee
(spec section 5): a failed unit of work leaves the state unchanged. -/
def runOp (c : Contract) (op : Op) : Contract :=
  match applyOp c op with
  | .ok c' => c'
  | .error _ => c

/-- Run a sequence of public operations. -/
def runOps (c : Contract) (ops : List Op) : Contract :=
  ops.foldl runOp c

/-- The token ids issued along a run of public operations.  Every minted
token (including the cloned "mutant") takes the counter's current value as
its id and advances the counter by exactly one, so the ids issued by one
step are the half-open counter interval the step spans. -/
def issuedTrace (c : Contract) : List Op → List TokenId
  | [] => []
  | op :: ops =>
    List.range' c.next_token_id ((runOp c op).next_token_id - c.next_token_id) ++
      issuedTrace (runOp c op) ops

/-- The ledger consistency invariant: the owner index and the token store
agree (spec invariants I1 and I2), every stored id is below the counter, and
every owner-index set is duplicate-free. -/
structure Consistent (c : Contract) : Prop where
  mem_owner : ∀ t a, t ∈ c.tokens_per_owner a → c.tokens_by_id t = some { owner_id := a }
  owner_mem : ∀ t tok, c.tokens_by_id t = some tok → t ∈ c.tokens_per_owner tok.owner_id
  lt_next : ∀ t, (c.tokens_by_id t).isSome → t < c.next_token_id
  nodup : ∀ a, (c.tokens_per_owner a).Nodup

/-- A concrete metadata record used for concrete evaluations (all fields
empty; any record would do). -/
def sampleMeta : TokenMetadata :=
  { title := none, description := none, media := none, media_hash := none
    copies := none, issued_at := none, expires_at := none, starts_at := none
    updated_at := none, extra := none, reference := none, reference_hash := none }

/-! ## Basic lemmas about the single-step operations -/

theorem internal_add_tokens_by_id (c : Contract) (a : AccountId) (id : TokenId) :
    (internal_add_token_to_owner c a id).tokens_by_id = c.tokens_by_id := rfl

theorem internal_add_tokens_per_owner (c : Contract) (a : AccountId) (id : TokenId) (x : AccountId) :
    (internal_add_token_to_owner c a id).tokens_per_owner x =
      if x = a then
        if id ∈ c.tokens_per_owner a then c.tokens_per_owner a
        else c.tokens_per_owner a ++ [id]
      else c.tokens_per_owner x := rfl

theorem internal_remove_tokens_per_owner (c : Contract) (a : AccountId) (id : TokenId) (x : AccountId) :
    (internal_remove_token_from_owner c a id).tokens_per_owner x =
      if x = a then (c.tokens_per_owner a).filter (fun t => decide (t ≠ id))
      else c.tokens_per_owner x := rfl

/-- Complete characterisation of a successful internal_transfer: the token
must exist and be owned by the sender, the receiver must differ from the
owner, and the result updates exactly the stored owner, the sender's set and
the receiver's set. -/
theorem internal_transfer_ok_spec {c c' : Contract} {s r : AccountId} {id : TokenId}
    {ap : Option Nat} {memo : Option String}
    (h : internal_transfer c s r id ap memo = .ok c') :
    c.tokens_by_id id = some { owner_id := s } ∧ r ≠ s ∧
    c'.owner_id = c.owner_id ∧ c'.metadata = c.metadata ∧
    c'.token_metadata_by_id = c.token_metadata_by_id ∧
    c'.vaxxxed = c.vaxxxed ∧ c'.next_token_id = c.next_token_id ∧
    (∀ t, c'.tokens_by_id t = if t = id then some { owner_id := r } else c.tokens_by_id t) ∧
    (∀ a, c'.tokens_per_owner a =
      if a = s then (c.tokens_per_owner s).filter (fun t => decide (t ≠ id))
      else if a = r then
        (if id ∈ c.tokens_per_owner r then c.tokens_per_owner r
         else c.tokens_per_owner r ++ [id])
      else c.tokens_per_owner a) := by
  unfold internal_transfer at h
  split at h
  · exact absurd h (by simp)
  · rename_i token htok
    split at h
    · rename_i hown
      split at h
      · exact absurd h (by simp)
      · rename_i hrec
        simp only [Except.ok.injEq] at h
        subst h
        have hrs : r ≠ s := fun hh => hrec (hh.trans hown.symm)
        have htok' : c.tokens_by_id id = some { owner_id := s } := by
          rw [htok]; cases token; simp_all
        refine ⟨htok', hrs, rfl, rfl, rfl, rfl, rfl, fun t => rfl, fun a => ?_⟩
        simp only [internal_add_tokens_per_owner, internal_remove_tokens_per_owner, hown]
        split_ifs <;> simp_all
    · split at h <;> exact absurd h (by simp)

/-- A transfer whose token exists, is owned by the sender, and whose receiver
differs from the sender, succeeds. -/
theorem internal_transfer_isOk {c : Contract} {s r : AccountId} {id : TokenId}
    (ap : Option Nat) (memo : Option String)
    (htok : c.tokens_by_id id = some { owner_id := s }) (hr : r ≠ s) :
    ∃ c', internal_transfer c s r id ap memo = .ok c' := by
  unfold internal_transfer
  rw [htok]
  simp [hr]

/-! ## Mint lemmas -/

theorem nft_mint_snd (c : Contract) (m : TokenMetadata) (r : AccountId) :
    (nft_mint c m r).2 = c.next_token_id := rfl

theorem nft_mint_tokens_by_id (c : Contract) (m : TokenMetadata) (r : AccountId) (t : TokenId) :
    ((nft_mint c m r).1).tokens_by_id t =
      if t = c.next_token_id then some { owner_id := r } else c.tokens_by_id t := rfl

theorem nft_mint_metadata_by_id (c : Contract) (m : TokenMetadata) (r : AccountId) (t : TokenId) :
    ((nft_mint c m r).1).token_metadata_by_id t =
      if t = c.next_token_id then some m else c.token_metadata_by_id t := rfl

theorem nft_mint_next (c : Contract) (m : TokenMetadata) (r : AccountId) :
    ((nft_mint c m r).1).next_token_id = c.next_token_id + 1 := rfl

theorem nft_mint_tokens_per_owner (c : Contract) (m : TokenMetadata) (r : AccountId) (x : AccountId) :
    ((nft_mint c m r).1).tokens_per_owner x =
      if x = r then
        if c.next_token_id ∈ c.tokens_per_owner r then c.tokens_per_owner r
        else c.tokens_per_owner r ++ [c.next_token_id]
      else c.tokens_per_owner x := rfl

/-! ## Preservation of the consistency invariant -/

theorem Consistent.fresh_not_stored {c : Contract} (h : Consistent c) :
    c.tokens_by_id c.next_token_id = none := by
  cases hs : c.tokens_by_id c.next_token_id with
  | none => rfl
  | some tok =>
    exact absurd (h.lt_next _ (by rw [hs]; rfl)) (lt_irrefl _)

theorem Consistent.fresh_not_mem {c : Contract} (h : Consistent c) (a : AccountId) :
    c.next_token_id ∉ c.tokens_per_owner a := by
  intro hm
  have hmo := h.mem_owner _ _ hm
  rw [h.fresh_not_stored] at hmo
  exact absurd hmo (by simp)

theorem consistent_new (o : AccountId) (m : NFTContractMetadata) :
    Consistent (Contract.new o m) := by
  refine ⟨?_, ?_, ?_, ?_⟩ <;> intros <;> simp_all [Contract.new]

theorem consistent_mint {c : Contract} (h : Consistent c) (m : TokenMetadata) (r : AccountId) :
    Consistent (nft_mint c m r).1 := by
  have hfr := h.fresh_not_stored
  have hfm := h.fresh_not_mem
  refine ⟨?_, ?_, ?_, ?_⟩
  · intro t a ht
    rw [nft_mint_tokens_per_owner] at ht
    rw [nft_mint_tokens_by_id]
    by_cases har : a = r
    · subst har
      rw [if_pos rfl, if_neg (hfm a)] at ht
      rcases List.mem_append.mp ht with hmem | hmem
      · have htne : t ≠ c.next_token_id := fun hh => hfm a (hh ▸ hmem)
        rw [if_neg htne]
        exact h.mem_owner _ _ hmem
      · have := List.mem_singleton.mp hmem
        subst this
        rw [if_pos rfl]
    · rw [if_neg har] at ht
      have htne : t ≠ c.next_token_id := fun hh => hfm a (hh ▸ ht)
      rw [if_neg htne]
      exact h.mem_owner _ _ ht
  · intro t tok ht
    rw [nft_mint_tokens_by_id] at ht
    rw [nft_mint_tokens_per_owner]
    by_cases htn : t = c.next_token_id
    · rw [if_pos htn] at ht
      injection ht with ht
      subst ht
      rw [if_pos rfl, if_neg (hfm r)]
      simp [htn]
    · rw [if_neg htn] at ht
      have hm := h.owner_mem _ _ ht
      by_cases hor : tok.owner_id = r
      · rw [if_pos hor, if_neg (hfm r)]
        exact List.mem_append_left _ (hor ▸ hm)
      · rw [if_neg hor]
        exact hm
  · intro t ht
    rw [nft_mint_tokens_by_id] at ht
    rw [nft_mint_next]
    by_cases htn : t = c.next_token_id
    · rw [htn]
      exact Nat.lt_succ_self _
    · rw [if_neg htn] at ht
      exact Nat.lt_succ_of_lt (h.lt_next _ ht)
  · intro a
    rw [nft_mint_tokens_per_owner]
    by_cases har : a = r
    · rw [if_pos har, if_neg (hfm r)]
      rw [List.nodup_append]
      exact ⟨h.nodup r, List.nodup_singleton _, by
        intro x hx hy
        rw [List.mem_singleton] at hy
        exact hfm r (hy ▸ hx)⟩
    · rw [if_neg har]
      exact h.nodup a

theorem consistent_internal_transfer {c c' : Contract} {s r : AccountId} {id : TokenId}
    {ap : Option Nat} {memo : Option String} (h : Consistent c)
    (hok : internal_transfer c s r id ap memo = .ok c') : Consistent c' := by
  obtain ⟨htok, hrs, -, -, -, -, hnext, hstore, htpo⟩ := internal_transfer_ok_spec hok
  have hidr : id ∉ c.tokens_per_owner r := by
    intro hm
    have hmo := h.mem_owner _ _ hm
    rw [htok] at hmo
    injection hmo with hmo
    exact hrs (congrArg Token.owner_id hmo).symm
  have htpo' : ∀ a, c'.tokens_per_owner a =
      if a = s then (c.tokens_per_owner s).filter (fun t => decide (t ≠ id))
      else if a = r then c.tokens_per_owner r ++ [id]
      else c.tokens_per_owner a := by
    intro a
    rw [htpo a]
    by_cases has : a = s
    · rw [if_pos has, if_pos has]
    · rw [if_neg has, if_neg has]
      by_cases har : a = r
      · rw [if_pos har, if_pos har, if_neg hidr]
      · rw [if_neg har, if_neg har]
  refine ⟨?_, ?_, ?_, ?_⟩
  · intro t a ht
    rw [htpo' a] at ht
    rw [hstore t]
    by_cases has : a = s
    · subst has
      rw [if_pos rfl] at ht
      rw [List.mem_filter, decide_eq_true_eq] at ht
      rw [if_neg ht.2]
      exact h.mem_owner _ _ ht.1
    · rw [if_neg has] at ht
      by_cases har : a = r
      · subst har
        rw [if_pos rfl] at ht
        rcases List.mem_append.mp ht with hmem | hmem
        · have htne : t ≠ id := fun hh => hidr (hh ▸ hmem)
          rw [if_neg htne]
          exact h.mem_owner _ _ hmem
        · have := List.mem_singleton.mp hmem
          subst this
          rw [if_pos rfl]
      · rw [if_neg har] at ht
        have htne : t ≠ id := by
          intro hh
          subst hh
          have hmo := h.mem_owner _ _ ht
          rw [htok] at hmo
          injection hmo with hmo
          exact has (congrArg Token.owner_id hmo).symm
        rw [if_neg htne]
        exact h.mem_owner _ _ ht
  · intro t tok ht
    rw [hstore t] at ht
    by_cases htn : t = id
    · subst htn
      rw [if_pos rfl] at ht
      injection ht with ht
      subst ht
      rw [htpo' r, if_neg hrs, if_pos rfl]
      simp
    · rw [if_neg htn] at ht
      have hm := h.owner_mem _ _ ht
      rw [htpo' tok.owner_id]
      by_cases hos : tok.owner_id = s
      · rw [if_pos hos]
        rw [List.mem_filter, decide_eq_true_eq]
        exact ⟨hos ▸ hm, htn⟩
      · rw [if_neg hos]
        by_cases hor : tok.owner_id = r
        · rw [if_pos hor]
          exact List.mem_append_left _ (hor ▸ hm)
        · rw [if_neg hor]
          exact hm
  · intro t ht
    rw [hstore t] at ht
    rw [hnext]
    by_cases htn : t = id
    · subst htn
      exact h.lt_next _ (by rw [htok]; rfl)
    · rw [if_neg htn] at ht
      exact h.lt_next _ ht
  · intro a
    rw [htpo' a]
    by_cases has : a = s
    · rw [if_pos has]
      exact (h.nodup s).filter _
    · rw [if_neg has]
      by_cases har : a = r
      · rw [if_pos har]
        rw [List.nodup_append]
        exact ⟨h.nodup r, List.nodup_singleton _, by
          intro x hx hy
          rw [List.mem_singleton] at hy
          exact hidr (hy ▸ hx)⟩
      · rw [if_neg har]
        exact h.nodup a

theorem consistent_cureLoop {caller : AccountId} :
    ∀ {L : List TokenId} {c c' : Contract}, Consistent c →
      cureLoop caller c L = .ok c' → Consistent c' := by
  intro L
  induction L with
  | nil =>
    intro c c' h hc
    unfold cureLoop at hc
    injection hc with hc
    exact hc ▸ h
  | cons id rest ih =>
    intro c c' h hc
    unfold cureLoop at hc
    cases htr : internal_transfer c caller burnAddress id none none with
    | error e => rw [htr] at hc; exact absurd hc (by simp)
    | ok st1 =>
      rw [htr] at hc
      exact ih (consistent_internal_transfer h htr) hc

theorem consistent_nft_cure {c c' : Contract} {caller : AccountId} (h : Consistent c)
    (hok : nft_cure c caller = .ok c') : Consistent c' := by
  simp only [nft_cure] at hok
  split at hok
  · exact absurd hok (by simp)
  · exact consistent_cureLoop h hok

theorem consistent_nft_transfer {c c' : Contract} {s r : AccountId}
    {sec : Option AccountId} {id : TokenId} {ap : Option Nat} {memo : Option String}
    (h : Consistent c) (hok : nft_transfer c s r sec id ap memo = .ok c') :
    Consistent c' := by
  unfold nft_transfer at hok
  cases htr : internal_transfer c s r id ap memo with
  | error e => rw [htr] at hok; exact absurd hok (by simp)
  | ok c1 =>
    rw [htr] at hok
    have hc1 := consistent_internal_transfer h htr
    cases sec with
    | none =>
      injection hok with hok
      exact hok ▸ hc1
    | some sr =>
      simp only at hok
      by_cases hsr : sr = r
      · rw [if_pos hsr] at hok
        injection hok with hok
        exact hok ▸ hc1
      · rw [if_neg hsr] at hok
        cases hmeta : c1.token_metadata_by_id id with
        | none => rw [hmeta] at hok; exact absurd hok (by simp)
        | some m =>
          rw [hmeta] at hok
          injection hok with hok
          exact hok ▸ consistent_mint hc1 m sr

theorem consistent_vaxxx {c : Contract} (h : Consistent c) (a : AccountId) :
    Consistent (vaxxx c a) := by
  unfold vaxxx
  split
  · exact h
  · exact ⟨h.mem_owner, h.owner_mem, h.lt_next, h.nodup⟩

theorem consistent_runOp {c : Contract} (h : Consistent c) (op : Op) :
    Consistent (runOp c op) := by
  cases op with
  | mint m r => exact consistent_mint h m r
  | transfer s rc sec id ap memo =>
    simp only [runOp, applyOp]
    cases htr : nft_transfer c s rc sec id ap memo with
    | error e => exact h
    | ok c' => exact consistent_nft_transfer h htr
  | cure caller =>
    simp only [runOp, applyOp]
    cases htr : nft_cure c caller with
    | error e => exact h
    | ok c' => exact consistent_nft_cure h htr
  | register a => exact consistent_vaxxx h a

theorem consistent_runOps {c : Contract} (h : Consistent c) (ops : List Op) :
    Consistent (runOps c ops) := by
  induction ops generalizing c with
  | nil => exact h
  | cons op ops ih => exact ih (consistent_runOp h op)

/-! ## Frame and functional lemmas for the cure loop -/

theorem cureLoop_frame {caller : AccountId} :
    ∀ {L : List TokenId} {c c' : Contract}, cureLoop caller c L = .ok c' →
      c'.owner_id = c.owner_id ∧ c'.metadata = c.metadata ∧
      c'.token_metadata_by_id = c.token_metadata_by_id ∧
      c'.vaxxxed = c.vaxxxed ∧ c'.next_token_id = c.next_token_id ∧
      (∀ a, a ≠ caller → a ≠ burnAddress → c'.tokens_per_owner a = c.tokens_per_owner a) ∧
      (∀ t, (c'.tokens_by_id t).isSome = (c.tokens_by_id t).isSome) := by
  intro L
  induction L with
  | nil =>
    intro c c' hc
    unfold cureLoop at hc
    injection hc with hc
    subst hc
    exact ⟨rfl, rfl, rfl, rfl, rfl, fun a _ _ => rfl, fun t => rfl⟩
  | cons id rest ih =>
    intro c c' hc
    unfold cureLoop at hc
    cases htr : internal_transfer c caller burnAddress id none none with
    | error e => rw [htr] at hc; exact absurd hc (by simp)
    | ok st1 =>
      rw [htr] at hc
      obtain ⟨htok, hrs, ho, hm, hmd, hv, hn, hstore, htpo⟩ := internal_transfer_ok_spec htr
      obtain ⟨iho, ihm, ihmd, ihv, ihn, ihtpo, ihstore⟩ := ih hc
      refine ⟨iho.trans ho, ihm.trans hm, ihmd.trans hmd, ihv.trans hv, ihn.trans hn, ?_, ?_⟩
      · intro a hac hab
        rw [ihtpo a hac hab, htpo a, if_neg hac, if_neg hab]
      · intro t
        rw [ihstore t, hstore t]
        by_cases htn : t = id
        · subst htn
          rw [if_pos rfl, htok]
          rfl
        · rw [if_neg htn]

/-- The heart of cure's correctness: running the transfer loop over the
snapshot of a consistent caller's owner-index set succeeds (when the caller
is not the sink account), sends every snapshotted token to the sink, leaves
every other token record unchanged, empties the caller's set and preserves
consistency. -/
theorem cureLoop_spec {caller : AccountId} (hcb : caller ≠ burnAddress) :
    ∀ {L : List TokenId} {c : Contract}, Consistent c →
      c.tokens_per_owner caller = L →
      ∃ c', cureLoop caller c L = .ok c' ∧
        c'.tokens_per_owner caller = [] ∧
        (∀ id ∈ L, c'.tokens_by_id id = some { owner_id := burnAddress }) ∧
        (∀ t, t ∉ L → c'.tokens_by_id t = c.tokens_by_id t) ∧
        Consistent c' := by
  intro L
  induction L with
  | nil =>
    intro c h hL
    exact ⟨c, rfl, hL, by simp, fun t _ => rfl, h⟩
  | cons id rest ih =>
    intro c h hL
    have hmem : id ∈ c.tokens_per_owner caller := by rw [hL]; simp
    have htok := h.mem_owner _ _ hmem
    have hbr : burnAddress ≠ caller := fun hh => hcb hh.symm
    obtain ⟨st1, htr⟩ := internal_transfer_isOk none none htok hbr
    obtain ⟨-, -, -, -, -, -, -, hstore, htpo⟩ := internal_transfer_ok_spec htr
    have hnd : (id :: rest).Nodup := hL ▸ h.nodup caller
    have hidrest : id ∉ rest := (List.nodup_cons.mp hnd).1
    have hst1 : st1.tokens_per_owner caller = rest := by
      rw [htpo caller, if_pos rfl, hL, List.filter_cons]
      rw [if_neg (by simp)]
      exact List.filter_eq_self.mpr (fun a ha => by
        rw [decide_eq_true_eq]
        exact fun hh => hidrest (hh ▸ ha))
    obtain ⟨c', hloop, hempty, hburn, hframe, hc'⟩ :=
      ih (consistent_internal_transfer h htr) hst1
    refine ⟨c', ?_, hempty, ?_, ?_, hc'⟩
    · unfold cureLoop
      rw [htr]
      exact hloop
    · intro x hx
      rcases List.mem_cons.mp hx with hx | hx
      · subst hx
        rw [hframe x hidrest, hstore x, if_pos rfl]
      · exact hburn x hx
    · intro t ht
      have htid : t ≠ id := fun hh => ht (hh ▸ List.mem_cons_self _ _)
      have htrest : t ∉ rest := fun hh => ht (List.mem_cons_of_mem _ hh)
      rw [hframe t htrest, hstore t, if_neg htid]

/-! ## Independence of cure from the allow-list -/

theorem internal_transfer_vax (c : Contract) (v : List AccountId) (s r : AccountId)
    (id : TokenId) (ap : Option Nat) (memo : Option String) :
    internal_transfer { c with vaxxxed := v } s r id ap memo =
      (internal_transfer c s r id ap memo).map (fun d => { d with vaxxxed := v }) := by
  obtain ⟨co, ctpo, cstore, cmeta, cmet, cv, cnext⟩ := c
  unfold internal_transfer internal_add_token_to_owner internal_remove_token_from_owner
  dsimp only
  cases cstore id with
  | none => rfl
  | some tok =>
    by_cases hown : tok.owner_id = s
    · by_cases hrec : r = tok.owner_id
      · simp [hown, hrec, Except.map]
      · have hrs : ¬r = s := fun hh => hrec (by rw [hown]; exact hh)
        simp [hown, hrec, hrs, Except.map]
    · cases ap <;> simp [hown, Except.map]

theorem cureLoop_vax (caller : AccountId) (v : List AccountId) :
    ∀ (L : List TokenId) (c : Contract),
      cureLoop caller { c with vaxxxed := v } L =
        (cureLoop caller c L).map (fun d => { d with vaxxxed := v }) := by
  intro L
  induction L with
  | nil => intro c; rfl
  | cons id rest ih =>
    intro c
    unfold cureLoop
    rw [internal_transfer_vax]
    cases htr : internal_transfer c caller burnAddress id none none with
    | error e => rfl
    | ok st1 =>
      simp only [Except.map]
      exact ih st1

/-! ## Counter monotonicity lemmas -/

theorem internal_transfer_next {c c' : Contract} {s r : AccountId} {id : TokenId}
    {ap : Option Nat} {memo : Option String}
    (hok : internal_transfer c s r id ap memo = .ok c') :
    c'.next_token_id = c.next_token_id := by
  obtain ⟨-, -, -, -, -, -, hn, -, -⟩ := internal_transfer_ok_spec hok
  exact hn

theorem cureLoop_next {caller : AccountId} {L : List TokenId} {c c' : Contract}
    (h : cureLoop caller c L = .ok c') : c'.next_token_id = c.next_token_id := by
  obtain ⟨-, -, -, -, hn, -, -⟩ := cureLoop_frame h
  exact hn

theorem nft_cure_next {c c' : Contract} {caller : AccountId}
    (hok : nft_cure c caller = .ok c') : c'.next_token_id = c.next_token_id := by
  simp only [nft_cure] at hok
  split at hok
  · exact absurd hok (by simp)
  · exact cureLoop_next hok

theorem nft_transfer_next_le {c c' : Contract} {s r : AccountId}
    {sec : Option AccountId} {id : TokenId} {ap : Option Nat} {memo : Option String}
    (hok : nft_transfer c s r sec id ap memo = .ok c') :
    c.next_token_id ≤ c'.next_token_id := by
  unfold nft_transfer at hok
  cases htr : internal_transfer c s r id ap memo with
  | error e => rw [htr] at hok; exact absurd hok (by simp)
  | ok c1 =>
    rw [htr] at hok
    have h1 := internal_transfer_next htr
    cases sec with
    | none =>
      injection hok with hok
      rw [hok] at h1
      exact le_of_eq h1.symm
    | some sr =>
      simp only at hok
      by_cases hsr : sr = r
      · rw [if_pos hsr] at hok
        injection hok with hok
        rw [hok] at h1
        exact le_of_eq h1.symm
      · rw [if_neg hsr] at hok
        cases hmeta : c1.token_metadata_by_id id with
        | none => rw [hmeta] at hok; exact absurd hok (by simp)
        | some m =>
          rw [hmeta] at hok
          injection hok with hok
          rw [← hok, nft_mint_next, h1]
          exact Nat.le_succ _

theorem runOp_next_le (c : Contract) (op : Op) :
    c.next_token_id ≤ (runOp c op).next_token_id := by
  cases op with
  | mint m r => exact Nat.le_succ _
  | transfer s rc sec id ap memo =>
    simp only [runOp, applyOp]
    cases htr : nft_transfer c s rc sec id ap memo with
    | error e => exact le_refl _
    | ok c' => exact nft_transfer_next_le htr
  | cure caller =>
    simp only [runOp, applyOp]
    cases htr : nft_cure c caller with
    | error e => exact le_refl _
    | ok c' => exact le_of_eq (nft_cure_next htr).symm
  | register a =>
    simp only [runOp, applyOp, vaxxx]
    split <;> exact le_refl _

/-- Along any run, the trace of issued ids is strictly increasing and
bounded below by the starting counter. -/
theorem issuedTrace_pairwise_ge (ops : List Op) :
    ∀ c : Contract,
      List.Pairwise (· < ·) (issuedTrace c ops) ∧
      ∀ x ∈ issuedTrace c ops, c.next_token_id ≤ x := by
  induction ops with
  | nil =>
    intro c
    exact ⟨List.Pairwise.nil, by intro x hx; simp [issuedTrace] at hx⟩
  | cons op ops ih =>
    intro c
    obtain ⟨ihp, ihge⟩ := ih (runOp c op)
    have hle := runOp_next_le c op
    constructor
    · rw [issuedTrace, List.pairwise_append]
      refine ⟨List.pairwise_lt_range' _ _, ihp, ?_⟩
      intro a ha b hb
      rw [List.mem_range'_1] at ha
      have han : a < (runOp c op).next_token_id := by
        have h2 := ha.2
        rwa [Nat.add_sub_cancel' hle] at h2
      exact lt_of_lt_of_le han (ihge b hb)
    · intro x hx
      rw [issuedTrace, List.mem_append] at hx
      rcases hx with hx | hx
      · exact (List.mem_range'_1.mp hx).1
      · exact le_trans hle (ihge x hx)

/-! ## Claim theorems -/

/-- A small reachable state used by concrete witnesses: a fresh contract
with one token minted to alice. -/
def aliceState : Contract :=
  runOps (Contract.new_default_meta "contract.near") [Op.mint sampleMeta "alice.near"]

/-- C1: Ownership uniqueness invariant: in every state reachable by a
sequence of the public operations (mint, transfer, cure, register) from a
freshly initialised contract, every token id present in the token store is
a member of the owner-index set of the account recorded as its owner in the
token store, and of no other account's set. -/
theorem C1_ownership_uniqueness (o : AccountId) (cm : NFTContractMetadata)
    (ops : List Op) (t : TokenId) (tok : Token)
    (h : (runOps (Contract.new o cm) ops).tokens_by_id t = some tok) :
    t ∈ (runOps (Contract.new o cm) ops).tokens_per_owner tok.owner_id ∧
    ∀ a, t ∈ (runOps (Contract.new o cm) ops).tokens_per_owner a → a = tok.owner_id := by
  have hc := consistent_runOps (consistent_new o cm) ops
  refine ⟨hc.owner_mem _ _ h, ?_⟩
  intro a ha
  have hmo := hc.mem_owner _ _ ha
  rw [h] at hmo
  injection hmo with hmo
  exact (congrArg Token.owner_id hmo).symm

/-- Witness for C1 at a concrete reachable state with one minted token. -/
theorem C1_ownership_uniqueness_witness :
    (runOps (Contract.new "contract.near" defaultContractMetadata)
        [Op.mint sampleMeta "alice.near"]).tokens_by_id 0 =
      some { owner_id := "alice.near" } ∧
    0 ∈ (runOps (Contract.new "contract.near" defaultContractMetadata)
        [Op.mint sampleMeta "alice.near"]).tokens_per_owner "alice.near" :=
  ⟨rfl, (C1_ownership_uniqueness "contract.near" defaultContractMetadata
      [Op.mint sampleMeta "alice.near"] 0 { owner_id := "alice.near" } rfl).1⟩

/-- C2 counterexample: the sink account itself can own tokens (anyone can
mint to it), and when it calls cure the per-token transfer is a transfer to
the token's current owner, which fails with NoOpTransfer; its supply stays 1
instead of becoming 0.  So "for every caller owning at least one token" is
too strong. -/
theorem C2_counterexample_sink_caller :
    tokens_of (runOps (Contract.new "contract.near" defaultContractMetadata)
        [Op.mint sampleMeta burnAddress]) burnAddress ≠ [] ∧
    nft_cure (runOps (Contract.new "contract.near" defaultContractMetadata)
        [Op.mint sampleMeta burnAddress]) burnAddress = .error .NoOpTransfer ∧
    nft_supply_for_owner
      (runOp (runOps (Contract.new "contract.near" defaultContractMetadata)
          [Op.mint sampleMeta burnAddress]) (Op.cure burnAddress)) burnAddress = 1 :=
  ⟨by decide, rfl, by decide⟩

/-- C2 (amended: the caller must not be the sink account itself): in every
reachable state, for every caller other than burn.near that owns at least
one token, nft_cure succeeds, every token id in the caller's owner-index
snapshot ends up owned by the sink account, and the caller's supply is 0. -/
theorem C2_cure_cures_all_amended (o : AccountId) (cm : NFTContractMetadata)
    (ops : List Op) (caller : AccountId) (hcb : caller ≠ burnAddress)
    (hne : tokens_of (runOps (Contract.new o cm) ops) caller ≠ []) :
    ∃ c', nft_cure (runOps (Contract.new o cm) ops) caller = .ok c' ∧
      (∀ id ∈ tokens_of (runOps (Contract.new o cm) ops) caller,
        c'.tokens_by_id id = some { owner_id := burnAddress }) ∧
      nft_supply_for_owner c' caller = 0 := by
  have hcons := consistent_runOps (consistent_new o cm) ops
  obtain ⟨c', hloop, hempty, hburn, -, -⟩ := cureLoop_spec hcb hcons rfl
  refine ⟨c', ?_, hburn, ?_⟩
  · have hne' : (runOps (Contract.new o cm) ops).tokens_per_owner caller ≠ [] := hne
    simp only [nft_cure]
    rw [if_neg hne']
    exact hloop
  · simp only [nft_supply_for_owner, hempty]
    rfl

/-- Witness for C2 (amended): alice owns one token, cures, and her supply
is 0 afterwards. -/
theorem C2_cure_cures_all_amended_witness :
    nft_supply_for_owner
      (runOp (runOps (Contract.new "contract.near" defaultContractMetadata)
          [Op.mint sampleMeta "alice.near"]) (Op.cure "alice.near")) "alice.near" = 0 := by
  obtain ⟨c', hok, -, hsup⟩ := C2_cure_cures_all_amended "contract.near"
    defaultContractMetadata [Op.mint sampleMeta "alice.near"] "alice.near"
    (by decide) (by decide)
  simp only [runOp, applyOp]
  rw [hok]
  exact hsup

/-- C5: cure by a caller that owns no tokens fails with NothingToCure (the
"Account not infected." panic of cure.rs), and the failed unit of work
leaves the state unchanged. -/
theorem C5_cure_nothing_to_cure (c : Contract) (caller : AccountId)
    (h : tokens_of c caller = []) :
    nft_cure c caller = .error .NothingToCure ∧ runOp c (Op.cure caller) = c := by
  have h' : c.tokens_per_owner caller = [] := h
  constructor
  · simp only [nft_cure]
    rw [if_pos h']
  · simp only [runOp, applyOp, nft_cure]
    rw [if_pos h']

/-- Witness for C5 on the freshly initialised contract. -/
theorem C5_cure_nothing_to_cure_witness :
    tokens_of (Contract.new_default_meta "contract.near") "alice.near" = [] ∧
    nft_cure (Contract.new_default_meta "contract.near") "alice.near" =
      .error .NothingToCure :=
  ⟨rfl, (C5_cure_nothing_to_cure (Contract.new_default_meta "contract.near")
      "alice.near" rfl).1⟩

/-- C6: counter monotonicity: starting from a freshly initialised contract
(counter 0), along every sequence of public operations each issued token id
is strictly greater than every previously issued id, so no id is reused. -/
theorem C6_counter_monotonicity (o : AccountId) (cm : NFTContractMetadata)
    (ops : List Op) :
    List.Pairwise (· < ·) (issuedTrace (Contract.new o cm) ops) :=
  (issuedTrace_pairwise_ge ops (Contract.new o cm)).1

/-- C7: round trip: minting with metadata M and immediately reading the
metadata of the returned token id yields exactly M. -/
theorem C7_mint_metadata_round_trip (c : Contract) (M : TokenMetadata) (owner : AccountId) :
    ((nft_mint c M owner).1).token_metadata_by_id (nft_mint c M owner).2 = some M := by
  rw [nft_mint_metadata_by_id, nft_mint_snd, if_pos rfl]

/-- C10: cure is independent of the allow-list: on any two states that agree
except for the vaxxxed set, cure by the same caller fails identically or
succeeds identically, the successful results differing only in that same
vaxxxed set (so token store and owner index are identical); registering
gives no protection from, and has no effect on, cure. -/
theorem C10_cure_allowlist_independent (c : Contract) (v : List AccountId)
    (caller : AccountId) :
    nft_cure { c with vaxxxed := v } caller =
      (nft_cure c caller).map (fun d => { d with vaxxxed := v }) := by
  obtain ⟨co, ctpo, cstore, cmeta, cmet, cv, cnext⟩ := c
  simp only [nft_cure]
  by_cases he : ctpo caller = []
  · rw [if_pos he, if_pos he]
    rfl
  · rw [if_neg he, if_neg he]
    exact cureLoop_vax caller v (ctpo caller)
      ⟨co, ctpo, cstore, cmeta, cmet, cv, cnext⟩

/-- C4: the secondary receiver is optional, and when it is absent the
cloning step is skipped entirely: a successful transfer with no secondary
receiver moves only the addressed token (every other token record is
unchanged), allocates no new id, leaves the metadata map untouched and
creates and deletes no token record. -/
theorem C4_transfer_without_secondary (c c' : Contract) (caller receiver : AccountId)
    (id : TokenId) (ap : Option Nat) (memo : Option String)
    (h : nft_transfer c caller receiver none id ap memo = .ok c') :
    c'.tokens_by_id id = some { owner_id := receiver } ∧
    (∀ t, t ≠ id → c'.tokens_by_id t = c.tokens_by_id t) ∧
    c'.next_token_id = c.next_token_id ∧
    c'.token_metadata_by_id = c.token_metadata_by_id ∧
    (∀ t, (c'.tokens_by_id t).isSome = (c.tokens_by_id t).isSome) := by
  unfold nft_transfer at h
  cases htr : internal_transfer c caller receiver id ap memo with
  | error e => rw [htr] at h; exact absurd h (by simp)
  | ok c1 =>
    rw [htr] at h
    replace h : Except.ok c1 = Except.ok c' := h
    injection h with h
    subst h
    obtain ⟨htok, hrs, -, -, hmd, -, hn, hstore, htpo⟩ := internal_transfer_ok_spec htr
    refine ⟨?_, ?_, hn, hmd, ?_⟩
    · rw [hstore id, if_pos rfl]
    · intro t ht
      rw [hstore t, if_neg ht]
    · intro t
      rw [hstore t]
      by_cases ht : t = id
      · subst ht
        rw [if_pos rfl, htok]
        rfl
      · rw [if_neg ht]

/-- Witness for C4: alice transfers token 0 to bob with no secondary
receiver; the token moves and the counter does not advance. -/
theorem C4_transfer_without_secondary_witness :
    (runOp aliceState (Op.transfer "alice.near" "bob.near" none 0 none none)).tokens_by_id 0 =
      some { owner_id := "bob.near" } ∧
    (runOp aliceState (Op.transfer "alice.near" "bob.near" none 0 none none)).next_token_id =
      aliceState.next_token_id :=
  have h := C4_transfer_without_secondary aliceState
    (runOp aliceState (Op.transfer "alice.near" "bob.near" none 0 none none))
    "alice.near" "bob.near" 0 none none rfl
  ⟨h.1, h.2.2.1⟩

/-- C9: frame property of cure: a successful nft_cure changes only ownership
state; the token metadata map, the counter, the allow-list, the contract
owner, the contract metadata and the owner-index entries of every account
other than the caller and the sink are unchanged, and no token record is
created or deleted. -/
theorem C9_cure_frame (c c' : Contract) (caller : AccountId)
    (h : nft_cure c caller = .ok c') :
    c'.token_metadata_by_id = c.token_metadata_by_id ∧
    c'.next_token_id = c.next_token_id ∧
    c'.vaxxxed = c.vaxxxed ∧
    c'.owner_id = c.owner_id ∧
    c'.metadata = c.metadata ∧
    (∀ a, a ≠ caller → a ≠ burnAddress → c'.tokens_per_owner a = c.tokens_per_owner a) ∧
    (∀ t, (c'.tokens_by_id t).isSome = (c.tokens_by_id t).isSome) := by
  simp only [nft_cure] at h
  split at h
  · exact absurd h (by simp)
  · obtain ⟨ho, hm, hmd, hv, hn, htpo, hst⟩ := cureLoop_frame h
    exact ⟨hmd, hn, hv, ho, hm, htpo, hst⟩

/-- Witness for C9: alice cures her one token; counter, allow-list and the
token's metadata entry are untouched. -/
theorem C9_cure_frame_witness :
    (runOp aliceState (Op.cure "alice.near")).next_token_id = aliceState.next_token_id ∧
    (runOp aliceState (Op.cure "alice.near")).vaxxxed = aliceState.vaxxxed ∧
    (runOp aliceState (Op.cure "alice.near")).token_metadata_by_id 0 =
      aliceState.token_metadata_by_id 0 :=
  have h := C9_cure_frame aliceState (runOp aliceState (Op.cure "alice.near"))
    "alice.near" rfl
  ⟨h.2.1, h.2.2.1, congrFun h.1 0⟩

/-- C3: mint a token with metadata M to A on a fresh contract, then transfer
it as A to primary receiver B with secondary receiver C (A, B, C pairwise
distinct accounts): token 0 ends up owned by B, a new token 1 exists owned
by C, token 1's metadata equals M (token 0's original metadata, which is
also still M), and the supplies of A, B, C are 0, 1, 1. -/
theorem C3_transfer_with_mutation (o : AccountId) (cm : NFTContractMetadata)
    (M : TokenMetadata) (A B C : AccountId)
    (hAB : A ≠ B) (hAC : A ≠ C) (hBC : B ≠ C) :
    ∃ c', nft_transfer (nft_mint (Contract.new o cm) M A).1 A B (some C) 0 none none =
        .ok c' ∧
      c'.tokens_by_id 0 = some { owner_id := B } ∧
      c'.tokens_by_id 1 = some { owner_id := C } ∧
      c'.token_metadata_by_id 1 = some M ∧
      c'.token_metadata_by_id 0 = some M ∧
      nft_supply_for_owner c' A = 0 ∧
      nft_supply_for_owner c' B = 1 ∧
      nft_supply_for_owner c' C = 1 := by
  have hBA : B ≠ A := Ne.symm hAB
  have hCA : C ≠ A := Ne.symm hAC
  have hCB : C ≠ B := Ne.symm hBC
  have hstore0 : (nft_mint (Contract.new o cm) M A).1.tokens_by_id 0 =
      some { owner_id := A } := rfl
  obtain ⟨ct, htr⟩ := internal_transfer_isOk none none hstore0 hBA
  obtain ⟨-, -, -, -, hmd, -, hn, hstore, htpo⟩ := internal_transfer_ok_spec htr
  have hnext1 : ct.next_token_id = 1 := hn
  have hmeta0 : ct.token_metadata_by_id 0 = some M := by
    rw [hmd]
    rfl
  have hc1A : (nft_mint (Contract.new o cm) M A).1.tokens_per_owner A = [0] := by
    rw [nft_mint_tokens_per_owner, if_pos rfl]
    rfl
  have hc1B : (nft_mint (Contract.new o cm) M A).1.tokens_per_owner B = [] := by
    rw [nft_mint_tokens_per_owner, if_neg hBA]
    rfl
  have hc1C : (nft_mint (Contract.new o cm) M A).1.tokens_per_owner C = [] := by
    rw [nft_mint_tokens_per_owner, if_neg hCA]
    rfl
  have htpoA : ct.tokens_per_owner A = [] := by
    rw [htpo A, if_pos rfl, hc1A]
    rfl
  have htpoB : ct.tokens_per_owner B = [0] := by
    rw [htpo B, if_neg hBA, if_pos rfl, hc1B]
    rfl
  have htpoC : ct.tokens_per_owner C = [] := by
    rw [htpo C, if_neg hCA, if_neg hCB, hc1C]
  have hwhole : nft_transfer (nft_mint (Contract.new o cm) M A).1 A B (some C) 0 none none =
      .ok (nft_mint ct M C).1 := by
    unfold nft_transfer
    rw [htr]
    dsimp only
    rw [if_neg hCB, hmeta0]
  refine ⟨(nft_mint ct M C).1, hwhole, ?_, ?_, ?_, ?_, ?_, ?_, ?_⟩
  · rw [nft_mint_tokens_by_id, hnext1, if_neg (by decide : ¬(0 : TokenId) = 1),
      hstore 0, if_pos rfl]
  · rw [nft_mint_tokens_by_id, hnext1, if_pos rfl]
  · rw [nft_mint_metadata_by_id, hnext1, if_pos rfl]
  · rw [nft_mint_metadata_by_id, hnext1, if_neg (by decide : ¬(0 : TokenId) = 1), hmd]
    rfl
  · simp only [nft_supply_for_owner]
    rw [nft_mint_tokens_per_owner, if_neg hAC, htpoA]
    rfl
  · simp only [nft_supply_for_owner]
    rw [nft_mint_tokens_per_owner, if_neg hBC, htpoB]
    rfl
  · simp only [nft_supply_for_owner]
    rw [nft_mint_tokens_per_owner, if_pos rfl, htpoC]
    rfl

/-- Witness for C3 at concrete accounts: the mutant token 1 belongs to
carol after alice transfers to bob with secondary receiver carol. -/
theorem C3_transfer_with_mutation_witness :
    (runOp (nft_mint (Contract.new "contract.near" defaultContractMetadata)
          sampleMeta "alice.near").1
        (Op.transfer "alice.near" "bob.near" (some "carol.near") 0 none none)).tokens_by_id 1 =
      some { owner_id := "carol.near" } := by
  obtain ⟨c', hok, -, h1, -, -, -, -, -⟩ := C3_transfer_with_mutation "contract.near"
    defaultContractMetadata sampleMeta "alice.near" "bob.near" "carol.near"
    (by decide) (by decide) (by decide)
  simp only [runOp, applyOp]
  rw [hok]
  exact h1

/-- C8: tokens_of enumerates an account's ids in insertion order: on a fresh
contract (and any unknown account) it is the empty sequence, not an error;
minting in a reachable state appends the newly issued id at the end of the
receiver's sequence; the supply query is the length of that same sequence;
and cure iterates exactly the tokens_of snapshot of the caller. -/
theorem C8_tokens_of_enumeration (o : AccountId) (cm : NFTContractMetadata)
    (ops : List Op) (a r caller : AccountId) (M : TokenMetadata) :
    tokens_of (Contract.new o cm) a = [] ∧
    nft_supply_for_owner (runOps (Contract.new o cm) ops) a =
      (tokens_of (runOps (Contract.new o cm) ops) a).length ∧
    tokens_of (nft_mint (runOps (Contract.new o cm) ops) M r).1 r =
      tokens_of (runOps (Contract.new o cm) ops) r ++
        [(nft_mint (runOps (Contract.new o cm) ops) M r).2] ∧
    nft_cure (runOps (Contract.new o cm) ops) caller =
      (if tokens_of (runOps (Contract.new o cm) ops) caller = [] then
        Except.error Err.NothingToCure
       else cureLoop caller (runOps (Contract.new o cm) ops)
         (tokens_of (runOps (Contract.new o cm) ops) caller)) := by
  refine ⟨rfl, rfl, ?_, rfl⟩
  have hcons := consistent_runOps (consistent_new o cm) ops
  have hfm := hcons.fresh_not_mem r
  simp only [tokens_of, nft_mint_tokens_per_owner, nft_mint_snd]
  rw [if_pos trivial, if_neg hfm]

end Varus
